import Mathlib

/-!
Verification of the sam command engine of the vis editor (rnpnr/vis).

This file shallowly embeds the parts of the engine that the claims C1..C10
are about, translated from `sam.c` (provided as `src/unnamed/part_000`) and
`src/text.h`:

* `Filerange` and its helpers (`text_range_valid`, `text_range_new`, ...),
  from the macros and doc comments of `src/text.h`;
* the per-file transcript (`Change`, `Transcript`, `change_new`,
  `sam_insert`, `sam_delete`, `sam_change`), from part_000 lines 1908-1978;
* the apply phase of `sam_cmd` (lines 2760-2803) as a trace of text
  operations;
* the lexer `sam_lex` (lines 1794-1850) and `validate_token_stream`
  (lines 2501-2519);
* the executor's loop/destructive bookkeeping (`execute_token_stream`,
  lines 2641-2707) together with the static `command_definition_table`
  (lines 1244-1433);
* `count_evaluate` (2425-2430) and `command_guard` (2900-2914);
* `evaluate_address_side` / `evaluate_address` (2324-2423);
* `vis_cmd_unregister` (40-48).

C sizes (`size_t`) are modelled as `Nat` with `EPOS = 2^64 - 1`; signed C
values (`int`, `ptrdiff_t`) as `Int`, with wrap-around made explicit where
the C code can overflow.  Pointers into linked lists are modelled as indices.
-/

/-! ## Fileranges (src/text.h) -/

/-- The constant `EPOS` is `(size_t)-1` (src/text.h line 12); `size_t` is 64 bits
wide. -/
def EPOS : Nat := 2 ^ 64 - 1

/-- A byte range of a file.  The C field `end` is called `stop` here because
`end` is reserved in Lean. -/
structure Filerange where
  start : Nat
  stop  : Nat
deriving Repr, DecidableEq

/-- src/text.h line 635: a range is valid iff `start != EPOS && end != EPOS
&& start <= end`. -/
def text_range_valid (r : Filerange) : Bool :=
  r.start != EPOS && r.stop != EPOS && r.start ≤ r.stop

/-- src/text.h line 637: size of the range (`end - start`) or zero if the
range is invalid. -/
def text_range_size (r : Filerange) : Nat :=
  if text_range_valid r then r.stop - r.start else 0

/-- src/text.h line 639: the empty / invalid range. -/
def text_range_empty : Filerange := ⟨EPOS, EPOS⟩

/-- src/text.h line 645: create the range `[min(a,b), max(a,b)]`. -/
def text_range_new (a b : Nat) : Filerange := ⟨min a b, max a b⟩

/-- Modelled from the spec: `text_range_union` is only declared in src/text.h
(line 641, "merge two ranges into a new one which contains both of them");
its body is not under src/.  Following that doc comment and spec section 4.3,
the union of two valid ranges covers both; an invalid range contributes
nothing. -/
def text_range_union (a b : Filerange) : Filerange :=
  if !text_range_valid a then b
  else if !text_range_valid b then a
  else ⟨min a.start b.start, max a.stop b.stop⟩

/-! ## Transcript (part_000 lines 1111-1124, 1908-1978)

`Change.type` is the C bitmask: `TRANSCRIPT_INSERT = 1`,
`TRANSCRIPT_DELETE = 2`, `TRANSCRIPT_CHANGE = 3`.  `win` and `sel` are the
window / selection pointers, modelled as opaque identifiers.  `data`, `len`
and `count` are filled in by `sam_insert` / `sam_change` after `change_new`
returned (calloc zero-initializes them). -/

def TRANSCRIPT_INSERT : Nat := 1
def TRANSCRIPT_DELETE : Nat := 2
def TRANSCRIPT_CHANGE : Nat := 3

structure Change where
  type  : Nat
  win   : Nat
  sel   : Option Nat
  range : Filerange
  data  : List Nat
  len   : Nat
  count : Int
deriving Repr, DecidableEq

inductive SamError where
  | ok | memory | address | noAddress | unmatchedBrace | regex | text
  | shell | command | execute | newline | mark | conflict | writeConflict
  | loopInvalidCmd | groupInvalidCmd | countErr
deriving Repr, DecidableEq

/-- The per-file transcript (`changes`, `latest`, `error`).  The C `latest`
pointer to the most recently inserted node is modelled as an index into
`changes`. -/
structure Transcript where
  changes : List Change
  latest  : Option Nat
  error   : SamError
deriving Repr, DecidableEq

/-- The scan-and-link loop of `change_new` (part_000 lines 1919-1935) on a
list of changes: skip nodes whose `range.end <= range->start`; at the first
remaining node, conflict if `next->range.start < range->end`, else link the
new change before it.  Returns the new list and the insertion index, or
`none` on conflict. -/
def scanInsert (cs : List Change) (c : Change) : Option (List Change × Nat) :=
  match cs with
  | [] => some ([c], 0)
  | x :: xs =>
    if x.range.stop ≤ c.range.start then
      match scanInsert xs c with
      | some (l, j) => some (x :: l, j + 1)
      | none => none
    else if x.range.start < c.range.stop then
      none
    else
      some (c :: x :: xs, 0)

/-- The `latest` shortcut of `change_new` (part_000 lines 1912-1918): if
`t->latest && t->latest->range.end <= range->start` the scan starts at
`latest->next`, otherwise at the head of the list. -/
def change_new_start (t : Transcript) (range : Filerange) : Nat :=
  match t.latest with
  | some i =>
    match t.changes.get? i with
    | some lc => if lc.range.stop ≤ range.start then i + 1 else 0
    | none => 0
  | none => 0

/-- part_000 lines 1908-1940.  On an invalid range nothing happens and NULL
is returned.  On conflict `t->error = SAM_ERR_CONFLICT` and NULL is
returned.  Otherwise a zero-initialized change is linked in and `t->latest`
is pointed at it; the returned value is the index of the new node
(modelling the returned `Change *`).  Allocation failure is not modelled. -/
def change_new (t : Transcript) (type : Nat) (range : Filerange)
    (win : Nat) (sel : Option Nat) : Option Nat × Transcript :=
  if text_range_valid range then
    let k := change_new_start t range
    let c : Change := { type, win, sel, range, data := [], len := 0, count := 0 }
    match scanInsert (t.changes.drop k) c with
    | none => (none, { t with error := SamError.conflict })
    | some (l, j) =>
        (some (k + j), { t with changes := t.changes.take k ++ l, latest := some (k + j) })
  else
    (none, t)

/-- Mutation of the fields of the `Change *` returned by `change_new`
(`c->data = data; c->len = len; c->count = count;` in `sam_insert` /
`sam_change`). -/
def change_set_payload (cs : List Change) (i : Nat) (data : List Nat)
    (len : Nat) (count : Int) : List Change :=
  match cs.get? i with
  | some c => cs.set i { c with data, len, count }
  | none => cs

/-- part_000 lines 1955-1964: enqueue an insert at `pos` (zero-sized range). -/
def sam_insert (t : Transcript) (win : Nat) (sel : Option Nat) (pos : Nat)
    (data : List Nat) (len : Nat) (count : Int) : Bool × Transcript :=
  let range := text_range_new pos pos
  match change_new t TRANSCRIPT_INSERT range win sel with
  | (some i, t') => (true, { t' with changes := change_set_payload t'.changes i data len count })
  | (none, t') => (false, t')

/-- part_000 lines 1966-1968. -/
def sam_delete (t : Transcript) (win : Nat) (sel : Option Nat)
    (range : Filerange) : Bool × Transcript :=
  match change_new t TRANSCRIPT_DELETE range win sel with
  | (some _, t') => (true, t')
  | (none, t') => (false, t')

/-- part_000 lines 1970-1978. -/
def sam_change (t : Transcript) (win : Nat) (sel : Option Nat)
    (range : Filerange) (data : List Nat) (len : Nat) (count : Int) :
    Bool × Transcript :=
  match change_new t TRANSCRIPT_CHANGE range win sel with
  | (some i, t') => (true, { t' with changes := change_set_payload t'.changes i data len count })
  | (none, t') => (false, t')

/-! ## Transcript invariants -/

/-- Consecutive changes in the list satisfy `prev.range.end <= next.range.start`:
"modification position increase monotonically" (part_000 line 1122). -/
def changesChained (cs : List Change) : Prop :=
  List.Chain' (fun a b => a.range.stop ≤ b.range.start) cs

/-- Every linked change has a valid range (`change_new` only links valid
ranges). -/
def changesAllValid (cs : List Change) : Prop :=
  ∀ c ∈ cs, text_range_valid c.range = true

/-- Two ranges overlap when each one's start is strictly below the other's
end (the claims' notion of overlap / crossing). -/
def rangesOverlap (a b : Filerange) : Prop :=
  a.start < b.stop ∧ b.start < a.stop

instance (a b : Filerange) : Decidable (rangesOverlap a b) :=
  inferInstanceAs (Decidable (a.start < b.stop ∧ b.start < a.stop))

instance (cs : List Change) : Decidable (changesChained cs) :=
  inferInstanceAs
    (Decidable (List.Chain' (fun a b : Change => a.range.stop ≤ b.range.start) cs))

instance (cs : List Change) : Decidable (changesAllValid cs) :=
  inferInstanceAs (Decidable (∀ c ∈ cs, text_range_valid c.range = true))

/-! ## The apply phase of `sam_cmd` (part_000 lines 2751-2803)

The piece-table `Text` is an external collaborator; the applier is modelled
as the trace of text operations it issues (`text_delete_range` /
`text_insert` calls), which is what the claims are about.  Selection
re-anchoring does not touch the text and is not modelled. -/

inductive TextOp where
  | delete (range : Filerange)
  | insert (pos : Nat) (data : List Nat) (len : Nat)
deriving Repr, DecidableEq

/-- The `size_t` wrap-around of a signed offset computation
(`c->range.start += delta` adds a `ptrdiff_t` to a `size_t`). -/
def wrap64 (i : Int) : Nat := (i % (2 ^ 64 : Int)).toNat

/-- The per-file change loop of `sam_cmd` (part_000 lines 2761-2800): shift
the recorded range by the running `delta`, issue the delete (if the
`TRANSCRIPT_DELETE` bit is set) and then `count` inserts (if the
`TRANSCRIPT_INSERT` bit is set), updating `delta` as the C code does. -/
def apply_changes : List Change → Int → List TextOp
  | [], _ => []
  | c :: cs, delta =>
    let r : Filerange := ⟨wrap64 ((c.range.start : Int) + delta),
                          wrap64 ((c.range.stop : Int) + delta)⟩
    let delOps := if c.type &&& TRANSCRIPT_DELETE != 0 then [TextOp.delete r] else []
    let delta1 := if c.type &&& TRANSCRIPT_DELETE != 0 then
                    delta - (text_range_size r : Int) else delta
    let insOps := if c.type &&& TRANSCRIPT_INSERT != 0 then
                    List.replicate c.count.toNat (TextOp.insert r.start c.data c.len)
                  else []
    let delta2 := if c.type &&& TRANSCRIPT_INSERT != 0 then
                    delta1 + (c.count.toNat : Int) * (c.len : Int) else delta1
    delOps ++ insOps ++ apply_changes cs delta2

/-- part_000 lines 2754-2759: a file whose transcript carries an error is
skipped entirely; otherwise the changes are applied starting from
`delta = 0`. -/
def sam_apply_file (t : Transcript) : List TextOp :=
  if t.error ≠ SamError.ok then [] else apply_changes t.changes 0

/-- The claim's (spec section 4.9) description of the applier, used as the
refinement target for C8: visit changes in order; apply each at its recorded
range shifted by the current delta, deletion before insertion; add
`len*count` to delta for an insert and subtract `range.end - range.start`
for a delete. -/
def apply_changes_spec : List Change → Int → List TextOp
  | [], _ => []
  | c :: cs, delta =>
    let s := ((c.range.start : Int) + delta).toNat
    let e := ((c.range.stop : Int) + delta).toNat
    (if c.type &&& TRANSCRIPT_DELETE != 0 then [TextOp.delete ⟨s, e⟩] else []) ++
    (if c.type &&& TRANSCRIPT_INSERT != 0 then
       List.replicate c.count.toNat (TextOp.insert s c.data c.len) else []) ++
    apply_changes_spec cs
      (delta + (if c.type &&& TRANSCRIPT_INSERT != 0 then
                  (c.count.toNat : Int) * (c.len : Int) else 0)
             - (if c.type &&& TRANSCRIPT_DELETE != 0 then
                  (c.range.stop : Int) - (c.range.start : Int) else 0))

/-- All position shifts performed by the applier stay inside `[0, EPOS)`
(no `size_t` wrap-around and no collision with `EPOS`), and every recorded
range is ordered.  Holds for every transcript the engine builds; stated
explicitly so that the C8 refinement has no hidden gaps. -/
def apply_in_bounds : List Change → Int → Bool
  | [], _ => true
  | c :: cs, delta =>
    0 ≤ (c.range.start : Int) + delta &&
    (c.range.stop : Int) + delta < (EPOS : Int) &&
    c.range.start ≤ c.range.stop &&
    apply_in_bounds cs
      (delta + (if c.type &&& TRANSCRIPT_INSERT != 0 then
                  (c.count.toNat : Int) * (c.len : Int) else 0)
             - (if c.type &&& TRANSCRIPT_DELETE != 0 then
                  (c.range.stop : Int) - (c.range.start : Int) else 0))

/-! ## The lexer (part_000 lines 1794-1850)

The raw command line is a byte slice; bytes are modelled as `Nat` values.
A token denotes the slice `[start, start+length)` of the line. -/

inductive SamTokenType where
  | ST_INVALID | ST_DELIMITER | ST_GROUP_END | ST_GROUP_START
  | ST_NUMBER | ST_STRING
deriving Repr, DecidableEq

structure SamToken where
  start  : Nat
  length : Nat
  type   : SamTokenType
deriving Repr, DecidableEq

/-- util.h: `ISSPACE(c)` is space, newline, tab or carriage return. -/
def ISSPACE (c : Nat) : Bool := c == 32 || c == 10 || c == 9 || c == 13

/-- util.h: `ISDIGIT(c)`. -/
def ISDIGIT (c : Nat) : Bool := 48 ≤ c && c ≤ 57

/-- part_000 lines 1072-1075: the sam delimiter bytes
`/ ! ; : % # ? , . + - = '`. -/
def IS_SAM_DELIMITER (c : Nat) : Bool :=
  c == 47 || c == 33 || c == 59 || c == 58 || c == 37 || c == 35 ||
  c == 63 || c == 44 || c == 46 || c == 43 || c == 45 || c == 61 || c == 39

/-- part_000 lines 1661-1668 (`sam_token_push`): zero-length accumulators
are not emitted. -/
def sam_token_push (acc : List SamToken) (tok : SamToken) : List SamToken :=
  if tok.length > 0 then acc ++ [tok] else acc

/-- The digit run consumed by `consume_digits` (part_000 lines 1599-1606). -/
def count_digits : List Nat → Nat
  | [] => 0
  | c :: rest => if ISDIGIT c then count_digits rest + 1 else 0

/-- The body of `sam_lex`'s while loop.  `pos` is the offset of `raw.data`
into the line and `accum` is the current string accumulator.  The loop runs
while `raw.len > 0`, i.e. while `pos < line.length`; every iteration
advances `pos` by at least one, so a fuel of `line.length` is exact.  Note
the `{` and `}` branches: the source consumes TWO bytes
(`raw = consume(raw, 1);` duplicated, lines 1819-1820 and 1827-1828) while
the emitted token has length 1, and `consume`'s `ASSERT(raw.len >= count)`
traps when `{` or `}` is the final byte of the line. -/
def sam_lex_go (line : List Nat) : Nat → Nat → SamToken → List SamToken → List SamToken
  | 0, _, accum, acc => sam_token_push acc accum
  | fuel + 1, pos, accum, acc =>
    if h : pos < line.length then
      let cp := line.get ⟨pos, h⟩
      if ISSPACE cp then
        sam_lex_go line fuel (pos + 1) ⟨pos + 1, 0, .ST_STRING⟩ (sam_token_push acc accum)
      else if ISDIGIT cp then
        let n := count_digits (line.drop pos)
        sam_lex_go line fuel (pos + n) ⟨pos + n, 0, .ST_STRING⟩
          (sam_token_push acc accum ++ [⟨pos, n, .ST_NUMBER⟩])
      else if cp == 123 then  -- 123 is the byte value of the opening brace
        sam_lex_go line fuel (pos + 2) ⟨pos + 2, 0, .ST_STRING⟩
          (sam_token_push acc accum ++ [⟨pos, 1, .ST_GROUP_START⟩])
      else if cp == 125 then  -- 125 is the byte value of the closing brace
        sam_lex_go line fuel (pos + 2) ⟨pos + 2, 0, .ST_STRING⟩
          (sam_token_push acc accum ++ [⟨pos, 1, .ST_GROUP_END⟩])
      else if (cp == 62 || cp == 60 || cp == 124) && accum.length == 0 then
        sam_lex_go line fuel (pos + 1) ⟨pos + 1, 0, .ST_STRING⟩
          (sam_token_push acc ⟨accum.start, accum.length + 1, accum.type⟩)
      else if IS_SAM_DELIMITER cp then
        sam_lex_go line fuel (pos + 1) ⟨pos + 1, 0, .ST_STRING⟩
          (sam_token_push acc accum ++ [⟨pos, 1, .ST_DELIMITER⟩])
      else
        sam_lex_go line fuel (pos + 1) ⟨accum.start, accum.length + 1, accum.type⟩ acc
    else
      sam_token_push acc accum

/-- part_000 lines 1794-1850. -/
def sam_lex (line : List Nat) : List SamToken :=
  sam_lex_go line line.length 0 ⟨0, 0, .ST_STRING⟩ []

/-- Whether `i` lies in the byte slice of some emitted token. -/
def token_covers (ts : List SamToken) (i : Nat) : Bool :=
  ts.any (fun t => t.start ≤ i && i < t.start + t.length)

/-- Byte values of an ASCII string, for writing concrete command lines. -/
def strBytes (s : String) : List Nat := s.data.map Char.toNat

/-! ## `validate_token_stream` (part_000 lines 2501-2519)

Only the token types matter.  The loop sets `result = 0` at the first
`ST_INVALID` token and stops, but the final `result = nesting == 0;`
(line 2514) overwrites `result` unconditionally. -/

/-- The `for` loop of `validate_token_stream`: runs while `result` is true,
accumulating the brace nesting.  Returns the final nesting counter, which is
all the function ends up looking at. -/
def validate_scan : List SamTokenType → Bool → Int → Int
  | [], _, nesting => nesting
  | t :: ts, result, nesting =>
    if result then
      match t with
      | .ST_INVALID => validate_scan ts false nesting
      | .ST_GROUP_START => validate_scan ts result (nesting + 1)
      | .ST_GROUP_END => validate_scan ts result (nesting - 1)
      | _ => validate_scan ts result nesting
    else nesting

/-- part_000 lines 2501-2519, faithfully including the overwrite of
`result` on line 2514. -/
def validate_token_stream (ts : List SamTokenType) : Bool :=
  validate_scan ts (decide (ts.length > 0)) 0 == 0

/-! ## Command definitions and the executor loop (part_000 lines 1163-1433,
2641-2707) -/

def CMD_CMD : Nat := 1
def CMD_REGEX : Nat := 2
def CMD_REGEX_DEFAULT : Nat := 4
def CMD_COUNT : Nat := 8
def CMD_TEXT : Nat := 16
def CMD_ADDRESS_NONE : Nat := 32
def CMD_ADDRESS_POS : Nat := 64
def CMD_ADDRESS_LINE : Nat := 128
def CMD_ADDRESS_AFTER : Nat := 256
def CMD_ADDRESS_ALL : Nat := 512
def CMD_ADDRESS_ALL_1CURSOR : Nat := 1024
def CMD_SHELL : Nat := 2048
def CMD_FORCE : Nat := 4096
def CMD_ARGV : Nat := 8192
def CMD_ONCE : Nat := 16384
def CMD_LOOP : Nat := 32768
def CMD_DESTRUCTIVE : Nat := 65536
def CMD_WIN : Nat := 131072

/-- part_000 lines 1163-1188 (`CommandDef`), restricted to the fields the
claims are about (name bytes and flag set; help text and the function
pointer add nothing to the embedding). -/
structure CommandDef where
  name  : List Nat
  flags : Nat
deriving Repr, DecidableEq

/-- part_000 lines 1244-1433: the static builtin command table. -/
def cmddef_a : CommandDef := ⟨strBytes "a", CMD_TEXT + CMD_WIN⟩
def cmddef_c : CommandDef := ⟨strBytes "c", CMD_TEXT + CMD_WIN⟩
def cmddef_d : CommandDef := ⟨strBytes "d", CMD_WIN⟩
def cmddef_g : CommandDef := ⟨strBytes "g", CMD_COUNT + CMD_REGEX + CMD_CMD + CMD_WIN⟩
def cmddef_i : CommandDef := ⟨strBytes "i", CMD_TEXT + CMD_WIN⟩
def cmddef_p : CommandDef := ⟨strBytes "p", CMD_WIN⟩
def cmddef_s : CommandDef := ⟨strBytes "s", CMD_SHELL⟩
def cmddef_v : CommandDef := ⟨strBytes "v", CMD_COUNT + CMD_REGEX + CMD_CMD⟩
def cmddef_x : CommandDef :=
  ⟨strBytes "x", CMD_CMD + CMD_REGEX + CMD_REGEX_DEFAULT + CMD_ADDRESS_ALL_1CURSOR + CMD_LOOP + CMD_WIN⟩
def cmddef_y : CommandDef :=
  ⟨strBytes "y", CMD_CMD + CMD_REGEX + CMD_ADDRESS_ALL_1CURSOR + CMD_LOOP + CMD_WIN⟩
def cmddef_X : CommandDef :=
  ⟨strBytes "X", CMD_CMD + CMD_REGEX + CMD_REGEX_DEFAULT + CMD_ADDRESS_NONE + CMD_ONCE⟩
def cmddef_Y : CommandDef :=
  ⟨strBytes "Y", CMD_CMD + CMD_REGEX + CMD_ADDRESS_NONE + CMD_ONCE⟩
def cmddef_pipeout : CommandDef := ⟨strBytes ">", CMD_SHELL + CMD_ADDRESS_LINE + CMD_WIN⟩
def cmddef_pipein : CommandDef := ⟨strBytes "<", CMD_SHELL + CMD_ADDRESS_POS + CMD_WIN⟩
def cmddef_filter : CommandDef := ⟨strBytes "|", CMD_SHELL + CMD_WIN⟩
def cmddef_launch : CommandDef := ⟨strBytes "!", CMD_SHELL + CMD_ONCE + CMD_ADDRESS_NONE + CMD_WIN⟩
def cmddef_w : CommandDef :=
  ⟨strBytes "w", CMD_ARGV + CMD_FORCE + CMD_ONCE + CMD_ADDRESS_ALL + CMD_WIN⟩
def cmddef_r : CommandDef := ⟨strBytes "r", CMD_ARGV + CMD_ADDRESS_AFTER⟩
def cmddef_e : CommandDef :=
  ⟨strBytes "e", CMD_ARGV + CMD_FORCE + CMD_ONCE + CMD_ADDRESS_NONE + CMD_DESTRUCTIVE + CMD_WIN⟩
def cmddef_q : CommandDef :=
  ⟨strBytes "q", CMD_ARGV + CMD_FORCE + CMD_ONCE + CMD_ADDRESS_NONE + CMD_DESTRUCTIVE⟩
def cmddef_cd : CommandDef := ⟨strBytes "cd", CMD_ARGV + CMD_ONCE + CMD_ADDRESS_NONE⟩
def cmddef_help : CommandDef := ⟨strBytes "help", CMD_ARGV + CMD_ONCE + CMD_ADDRESS_NONE⟩
def cmddef_map : CommandDef :=
  ⟨strBytes "map", CMD_ARGV + CMD_FORCE + CMD_ONCE + CMD_ADDRESS_NONE⟩
def cmddef_map_window : CommandDef :=
  ⟨strBytes "map-window", CMD_ARGV + CMD_FORCE + CMD_ONCE + CMD_ADDRESS_NONE⟩
def cmddef_unmap : CommandDef := ⟨strBytes "unmap", CMD_ARGV + CMD_ONCE + CMD_ADDRESS_NONE⟩
def cmddef_unmap_window : CommandDef :=
  ⟨strBytes "unmap-window", CMD_ARGV + CMD_ONCE + CMD_ADDRESS_NONE + CMD_WIN⟩
def cmddef_langmap : CommandDef :=
  ⟨strBytes "langmap", CMD_ARGV + CMD_FORCE + CMD_ONCE + CMD_ADDRESS_NONE⟩
def cmddef_new : CommandDef := ⟨strBytes "new", CMD_ARGV + CMD_ONCE + CMD_ADDRESS_NONE⟩
def cmddef_open : CommandDef := ⟨strBytes "open", CMD_ARGV + CMD_ONCE + CMD_ADDRESS_NONE⟩
def cmddef_qall : CommandDef :=
  ⟨strBytes "qall", CMD_ARGV + CMD_FORCE + CMD_ONCE + CMD_ADDRESS_NONE + CMD_DESTRUCTIVE⟩
def cmddef_set : CommandDef := ⟨strBytes "set", CMD_ARGV + CMD_ONCE + CMD_ADDRESS_NONE⟩
def cmddef_split : CommandDef :=
  ⟨strBytes "split", CMD_ARGV + CMD_ONCE + CMD_ADDRESS_NONE + CMD_WIN⟩
def cmddef_vnew : CommandDef := ⟨strBytes "vnew", CMD_ARGV + CMD_ONCE + CMD_ADDRESS_NONE⟩
def cmddef_vsplit : CommandDef :=
  ⟨strBytes "vsplit", CMD_ARGV + CMD_ONCE + CMD_ADDRESS_NONE + CMD_WIN⟩
def cmddef_wq : CommandDef :=
  ⟨strBytes "wq", CMD_ARGV + CMD_FORCE + CMD_ONCE + CMD_ADDRESS_ALL + CMD_DESTRUCTIVE + CMD_WIN⟩
def cmddef_earlier : CommandDef :=
  ⟨strBytes "earlier", CMD_ARGV + CMD_ONCE + CMD_ADDRESS_NONE + CMD_WIN⟩
def cmddef_later : CommandDef :=
  ⟨strBytes "later", CMD_ARGV + CMD_ONCE + CMD_ADDRESS_NONE + CMD_WIN⟩

def command_definition_table : List CommandDef :=
  [cmddef_a, cmddef_c, cmddef_d, cmddef_g, cmddef_i, cmddef_p, cmddef_s,
   cmddef_v, cmddef_x, cmddef_y, cmddef_X, cmddef_Y, cmddef_pipeout,
   cmddef_pipein, cmddef_filter, cmddef_launch, cmddef_w, cmddef_r,
   cmddef_e, cmddef_q, cmddef_cd, cmddef_help, cmddef_map,
   cmddef_map_window, cmddef_unmap, cmddef_unmap_window, cmddef_langmap,
   cmddef_new, cmddef_open, cmddef_qall, cmddef_set, cmddef_split,
   cmddef_vnew, cmddef_vsplit, cmddef_wq, cmddef_earlier, cmddef_later]

/-- The `ST_STRING` branch of `execute_token_stream`'s while loop
(part_000 lines 2666-2684), traced over the sequence of commands the line
resolves to.  Group tokens only navigate the command tree and touch neither
`did_looping_command` nor `should_exit`, so they are dropped from the
sequence.  `ok i` tells whether `execute_command` for the i-th command
returns success (the handlers call into collaborators).  The result is the
list of commands whose `execute_command` was actually invoked, in order:
a command with `CMD_DESTRUCTIVE` after `did_looping_command` is set is
rejected without being invoked and stops the loop; a failing command is
invoked and then stops the loop via `should_exit`. -/
def execute_commands (ok : Nat → Bool) :
    List CommandDef → Nat → Bool → List CommandDef
  | [], _, _ => []
  | d :: ds, i, didLoop =>
    if didLoop && (d.flags &&& CMD_DESTRUCTIVE != 0) then []
    else if ok i then
      d :: execute_commands ok ds (i + 1) (didLoop || (d.flags &&& CMD_LOOP != 0))
    else [d]

/-! ## `count_evaluate` and `command_guard` (part_000 lines 2425-2430,
2900-2914) -/

/-- The `Count` argument interval (part_000 lines 1152-1155); the C field
`end` is called `stop` here. -/
structure Count where
  start : Int
  stop  : Int
  mod   : Bool
deriving Repr, DecidableEq

/-- part_000 lines 2425-2430.  `%` on C ints truncates toward zero, which is
`Int.tmod`. -/
def count_evaluate (count : Count) (iteration : Int) : Bool :=
  if count.mod then
    if count.start != 0 then Int.tmod iteration count.start == 0 else true
  else
    count.start ≤ iteration && iteration ≤ count.stop

/-- The inputs `command_guard` acts on.  `is_v` is
`command->definition->name.data[0] == 'v'`; `searchHit` is the outcome of
the `text_search_range_forward` collaborator call over `range` (the start
of `captures[0]` when a match was found). -/
structure GuardInput where
  is_v      : Bool
  count     : Count
  iteration : Int
  hasRegex  : Bool
  searchHit : Option Nat
  range     : Filerange
deriving Repr, DecidableEq

/-- The `match` flag of `command_guard` (part_000 lines 2903-2909): true
without a regex; with one, true iff the search succeeded with
`captures[0].start < range->end`. -/
def guard_match (g : GuardInput) : Bool :=
  if !g.hasRegex then true
  else
    match g.searchHit with
    | some s => s < g.range.stop
    | none => false

inductive GuardAction where
  | runNested | dispose
deriving Repr, DecidableEq

/-- part_000 lines 2910-2913: run the nested command iff
`(count_evaluate(command) && match) ^ (name[0] == 'v')`, else dispose the
selection. -/
def command_guard (g : GuardInput) : GuardAction :=
  if (count_evaluate g.count g.iteration && guard_match g) != g.is_v then
    GuardAction.runNested
  else
    GuardAction.dispose

/-! ## Address evaluation (part_000 lines 2126-2423)

The text buffer, marks and the regex engine are external collaborators,
abstracted as the fields of `TextModel`.  Regexes are opaque identifiers. -/

inductive AddressSide where
  | invalid
  | byte (n : Nat)
  | character (c : Nat)
  | line (n : Nat)
  | mark (m : Nat)
  | regexBackward (r : Nat)
  | regexForward (r : Nat)
deriving Repr, DecidableEq

structure Address where
  left      : AddressSide
  right     : AddressSide
  delimeter : Nat
deriving Repr, DecidableEq

/-- Collaborator interface used by the address evaluator: `text_size`,
`text_pos_by_lineno`, `text_line_next`, `text_lineno_by_pos`,
`text_byte_get`, the per-mark array combined with `text_mark_get`
(yielding `EPOS` when the mark is absent), and the regex search entry
points `text_object_search_forward` / `_backward`. -/
structure TextModel where
  size        : Nat
  posByLineno : Nat → Nat
  lineNext    : Nat → Nat
  linenoByPos : Nat → Nat
  byteGet     : Nat → Option Nat
  markGet     : Nat → Nat → Nat
  searchFwd   : Nat → Nat → Filerange
  searchBwd   : Nat → Nat → Filerange

/-- part_000 lines 2324-2367 (`evaluate_address_side`).  `sel` is the
selection whose ordinal indexes the mark array; a null selection uses
ordinal 0. -/
def evaluate_address_side (tm : TextModel) (as : AddressSide)
    (sel : Option Nat) (range : Filerange) : Filerange :=
  match as with
  | .invalid => text_range_empty
  | .byte n => ⟨n, n⟩
  | .character c =>
    if c = 36 then ⟨tm.size, tm.size⟩                 -- dollar: EOF
    else if c = 46 then range                          -- dot: current range
    else if c = 37 then text_range_new 0 tm.size       -- percent: whole file
    else text_range_empty
  | .line n =>
    if n = 0 then ⟨0, 0⟩
    else
      let l := tm.posByLineno n
      text_range_new l (tm.lineNext l)
  | .mark m =>
    let pos := tm.markGet m (match sel with | some s => s | none => 0)
    ⟨pos, pos⟩
  | .regexBackward r => tm.searchBwd range.start r
  | .regexForward r => tm.searchFwd range.stop r

/-- part_000 lines 2369-2423 (`evaluate_address`).  Delimiters are the byte
values of `+ - , ;`; any other delimiter leaves the empty range. -/
def evaluate_address (tm : TextModel) (addr : Address) (sel : Option Nat)
    (range : Filerange) : Filerange :=
  if addr.delimeter = 43 || addr.delimeter = 45 then       -- plus or minus
    let right :=
      match addr.right with
      | .invalid => (⟨0, 0⟩ : Filerange)
      | r => evaluate_address_side tm r sel range
    let line :=
      if addr.delimeter = 43 then
        let offset := if right.stop ≠ EPOS then right.stop else 1
        let e0 := range.stop
        let e1 := if range.start < e0 && tm.byteGet (e0 - 1) == some 10
                  then e0 - 1 else e0
        tm.posByLineno (tm.linenoByPos e1 + offset)
      else
        let offset := if right.start ≠ EPOS then right.start else 1
        let l0 := tm.linenoByPos range.start
        if offset < l0 then tm.posByLineno (l0 - offset) else 0
    text_range_new line (tm.lineNext line)
  else if addr.delimeter = 44 || addr.delimeter = 59 then  -- comma or semicolon
    let left :=
      match addr.left with
      | .invalid => (⟨0, 0⟩ : Filerange)
      | l => evaluate_address_side tm l sel range
    let range1 := if addr.delimeter = 59 then left else range
    let right :=
      match addr.right with
      | .invalid => (⟨tm.size, tm.size⟩ : Filerange)
      | r => evaluate_address_side tm r sel range1
    text_range_union left right
  else
    text_range_empty

/-! ## User command registration maps (part_000 lines 13-48)

The `Map` collaborator (map.c is not under src/) is modelled from the spec
as a finite map from names to opaque values: `map_get` looks a key up,
`map_delete` removes a present key and reports whether it was present,
and neither touches other keys. -/

/-- Modelled from the spec: the string-map collaborator, as an association
list with unique keys kept in insertion order. -/
def map_get (m : List (String × Nat)) (k : String) : Option Nat :=
  match m with
  | [] => none
  | (k', v) :: rest => if k' = k then some v else map_get rest k

/-- Modelled from the spec: `map_delete` removes the entry for `k` and
returns it (`NULL` when absent, leaving the map unchanged). -/
def map_delete (m : List (String × Nat)) (k : String) :
    Option Nat × List (String × Nat) :=
  match m with
  | [] => (none, [])
  | (k', v) :: rest =>
    if k' = k then (some v, rest)
    else
      let (r, rest') := map_delete rest k
      (r, (k', v) :: rest')

/-- The two registries involved: `vis->cmds` (all command definitions) and
`vis->usercmds` (user registrations). -/
structure VisMaps where
  cmds     : List (String × Nat)
  usercmds : List (String × Nat)
deriving Repr, DecidableEq

/-- part_000 lines 40-48 (`vis_cmd_unregister`) for a non-null name:
`result = cmd && map_delete(vis->cmds, name) && map_delete(vis->usercmds, name)`
with C's left-to-right short-circuit evaluation of the side-effecting
deletes. -/
def vis_cmd_unregister (vis : VisMaps) (name : String) : Bool × VisMaps :=
  match map_get vis.usercmds name with
  | none => (false, vis)
  | some _ =>
    match map_delete vis.cmds name with
    | (none, cmds') => (false, { vis with cmds := cmds' })
    | (some _, cmds') =>
      match map_delete vis.usercmds name with
      | (none, usercmds') => (false, { cmds := cmds', usercmds := usercmds' })
      | (some _, usercmds') => (true, { cmds := cmds', usercmds := usercmds' })

-- quick sanity checks of the embedding on concrete inputs
example :
    (change_new ⟨[], none, .ok⟩ TRANSCRIPT_DELETE ⟨2, 5⟩ 0 none).2.changes.map
      (fun c => c.range) = [⟨2, 5⟩] := by decide

example :
    (change_new (change_new ⟨[], none, .ok⟩ TRANSCRIPT_DELETE ⟨2, 5⟩ 0 none).2
      TRANSCRIPT_DELETE ⟨4, 6⟩ 0 none).2.error = SamError.conflict := by decide

example :
    (change_new (change_new ⟨[], none, .ok⟩ TRANSCRIPT_DELETE ⟨2, 5⟩ 0 none).2
      TRANSCRIPT_DELETE ⟨5, 6⟩ 0 none).2.changes.map (fun c => c.range) =
      [⟨2, 5⟩, ⟨5, 6⟩] := by decide

example : sam_lex (strBytes "1,2d") =
    [⟨0, 1, .ST_NUMBER⟩, ⟨1, 1, .ST_DELIMITER⟩, ⟨2, 1, .ST_NUMBER⟩,
     ⟨3, 1, .ST_STRING⟩] := by decide

example : sam_lex [123, 97, 98, 125, 120] =
    [⟨0, 1, .ST_GROUP_START⟩, ⟨2, 1, .ST_STRING⟩, ⟨3, 1, .ST_GROUP_END⟩] := by
  decide

example : validate_token_stream [.ST_GROUP_START, .ST_STRING, .ST_GROUP_END] = true := by
  decide

example : validate_token_stream [.ST_GROUP_START] = false := by decide

/-! ## Helper lemmas about the transcript -/

theorem valid_start_le_stop {r : Filerange} (h : text_range_valid r = true) :
    r.start ≤ r.stop := by
  simp only [text_range_valid, Bool.and_eq_true, decide_eq_true_eq] at h
  exact h.2

theorem chained_head_le {x : Change} {xs : List Change}
    (hch : changesChained (x :: xs)) (hval : changesAllValid xs) :
    ∀ y ∈ xs, x.range.stop ≤ y.range.start := by
  induction xs generalizing x with
  | nil => intro y hy; cases hy
  | cons z rest ih =>
    intro y hy
    have hxz : x.range.stop ≤ z.range.start := (List.chain'_cons.mp hch).1
    cases hy with
    | head => exact hxz
    | tail _ hy' =>
      have hz := ih (List.chain'_cons.mp hch).2
        (fun c hc => hval c (List.mem_cons_of_mem _ hc)) y hy'
      have hzv : z.range.start ≤ z.range.stop :=
        valid_start_le_stop (hval z (List.mem_cons_self _ _))
      omega

theorem chained_tail {x : Change} {xs : List Change}
    (hch : changesChained (x :: xs)) : changesChained xs :=
  (List.chain'_cons'.mp hch).2

theorem mem_take_stop_le {cs : List Change} {i : Nat} {lc : Change}
    (hch : changesChained cs) (hval : changesAllValid cs)
    (hg : cs.get? i = some lc) :
    ∀ c ∈ cs.take (i + 1), c.range.stop ≤ lc.range.stop := by
  induction cs generalizing i with
  | nil => simp at hg
  | cons x xs ih =>
    cases i with
    | zero =>
      intro c hc
      simp only [List.get?] at hg
      simp only [List.take, List.mem_singleton] at hc
      cases hg; cases hc; exact le_refl _
    | succ k =>
      have hg' : xs.get? k = some lc := hg
      intro c hc
      rw [List.take_succ_cons] at hc
      rcases List.mem_cons.mp hc with rfl | hc'
      · have hlcmem : lc ∈ xs := List.get?_mem hg'
        have h1 := chained_head_le hch
          (fun d hd => hval d (List.mem_cons_of_mem _ hd)) lc hlcmem
        have h2 : lc.range.start ≤ lc.range.stop :=
          valid_start_le_stop (hval lc (List.mem_cons_of_mem _ hlcmem))
        omega
      · exact ih (chained_tail hch)
          (fun d hd => hval d (List.mem_cons_of_mem _ hd)) hg' c hc'

theorem chained_drop {cs : List Change} (k : Nat)
    (hch : changesChained cs) : changesChained (cs.drop k) := by
  rw [← List.take_append_drop k cs] at hch
  exact (List.chain'_append.mp hch).2.1

theorem chained_take {cs : List Change} (k : Nat)
    (hch : changesChained cs) : changesChained (cs.take k) := by
  rw [← List.take_append_drop k cs] at hch
  exact (List.chain'_append.mp hch).1

theorem chained_take_drop_bound {cs : List Change} (k : Nat)
    (hch : changesChained cs) :
    ∀ x ∈ (cs.take k).getLast?, ∀ y ∈ (cs.drop k).head?,
      x.range.stop ≤ y.range.start := by
  rw [← List.take_append_drop k cs] at hch
  exact (List.chain'_append.mp hch).2.2

theorem getLast?_take_of_get? {cs : List Change} {i : Nat} {lc : Change}
    (hg : cs.get? i = some lc) :
    (cs.take (i + 1)).getLast? = some lc := by
  obtain ⟨hi, _⟩ := List.get?_eq_some.mp hg
  rw [List.getLast?_eq_get?]
  have hlen : (cs.take (i + 1)).length = i + 1 := by
    simp only [List.length_take]
    omega
  rw [hlen]
  simp only [Nat.add_sub_cancel]
  rw [List.get?_take (Nat.lt_succ_self i)]
  exact hg

theorem scanInsert_none_of_overlap {cs : List Change} {nc : Change}
    (hch : changesChained cs) (hval : changesAllValid cs)
    (hov : ∃ c ∈ cs, rangesOverlap c.range nc.range) :
    scanInsert cs nc = none := by
  induction cs with
  | nil => rcases hov with ⟨c, hc, _⟩; cases hc
  | cons x xs ih =>
    by_cases h1 : x.range.stop ≤ nc.range.start
    · have hov' : ∃ c ∈ xs, rangesOverlap c.range nc.range := by
        rcases hov with ⟨c, hc, ho⟩
        rcases List.mem_cons.mp hc with rfl | hc'
        · exact absurd ho.2 (by omega)
        · exact ⟨c, hc', ho⟩
      have hrec := ih (chained_tail hch)
        (fun d hd => hval d (List.mem_cons_of_mem _ hd)) hov'
      simp [scanInsert, h1, hrec]
    · by_cases h2 : x.range.start < nc.range.stop
      · simp [scanInsert, h1, h2]
      · exfalso
        rcases hov with ⟨c, hc, ho⟩
        rcases List.mem_cons.mp hc with rfl | hc'
        · exact h2 ho.1
        · have hxc := chained_head_le hch
            (fun d hd => hval d (List.mem_cons_of_mem _ hd)) c hc'
          have hxv : x.range.start ≤ x.range.stop :=
            valid_start_le_stop (hval x (List.mem_cons_self _ _))
          have := ho.1
          omega

theorem overlap_mem_drop_start {t : Transcript} {r : Filerange}
    (hch : changesChained t.changes) (hval : changesAllValid t.changes)
    (hov : ∃ c ∈ t.changes, rangesOverlap c.range r) :
    ∃ c ∈ t.changes.drop (change_new_start t r), rangesOverlap c.range r := by
  rcases hov with ⟨c, hc, ho⟩
  cases hl : t.latest with
  | none =>
    refine ⟨c, ?_, ho⟩
    simpa [change_new_start, hl] using hc
  | some i =>
    cases hg : t.changes.get? i with
    | none =>
      refine ⟨c, ?_, ho⟩
      have hg2 : t.changes[i]? = none := by
        rw [← List.get?_eq_getElem?]; exact hg
      simpa [change_new_start, hl, hg2] using hc
    | some lc =>
      have hg2 : t.changes[i]? = some lc := by
        rw [← List.get?_eq_getElem?]; exact hg
      by_cases hle : lc.range.stop ≤ r.start
      · have hk : change_new_start t r = i + 1 := by
          simp [change_new_start, hl, hg2, hle]
        rw [hk]
        have hsplit : c ∈ t.changes.take (i + 1) ∨ c ∈ t.changes.drop (i + 1) := by
          rw [← List.take_append_drop (i + 1) t.changes] at hc
          exact List.mem_append.mp hc
        rcases hsplit with h | h
        · exfalso
          have := mem_take_stop_le hch hval hg c h
          have := ho.2
          omega
        · exact ⟨c, h, ho⟩
      · have hk : change_new_start t r = 0 := by
          simp [change_new_start, hl, hg2, hle]
        rw [hk]
        exact ⟨c, by simpa using hc, ho⟩

/-- Under the ordering invariant, `change_new` detects every overlap: it
sets `SAM_ERR_CONFLICT` and links nothing. -/
theorem change_new_conflict_of_overlap (t : Transcript) (ty : Nat)
    (r : Filerange) (w : Nat) (s : Option Nat)
    (hch : changesChained t.changes) (hval : changesAllValid t.changes)
    (hv : text_range_valid r = true)
    (hov : ∃ c ∈ t.changes, rangesOverlap c.range r) :
    change_new t ty r w s = (none, { t with error := SamError.conflict }) := by
  have hdropch := chained_drop (change_new_start t r) hch
  have hdropval : changesAllValid (t.changes.drop (change_new_start t r)) :=
    fun c hc => hval c (List.mem_of_mem_drop hc)
  have hdropov := overlap_mem_drop_start hch hval hov
  have hnone : scanInsert (t.changes.drop (change_new_start t r))
      ⟨ty, w, s, r, [], 0, 0⟩ = none :=
    scanInsert_none_of_overlap hdropch hdropval hdropov
  simp [change_new, hv, hnone]

/-- Once recorded, a `Conflict` is never cleared by `change_new` on the
transcript (it only ever writes `SAM_ERR_CONFLICT` or leaves `error`
alone). -/
theorem change_new_conflict_persists (t : Transcript) (ty : Nat)
    (r : Filerange) (w : Nat) (s : Option Nat)
    (he : t.error = SamError.conflict) :
    ((change_new t ty r w s).2).error = SamError.conflict := by
  unfold change_new
  split
  · cases hsc : scanInsert (t.changes.drop (change_new_start t r))
      ⟨ty, w, s, r, [], 0, 0⟩ with
    | none => simp [hsc]
    | some lj => cases lj with
      | mk l j => simp [hsc, he]
  · simpa [he]

theorem scanInsert_mem {cs : List Change} {nc : Change} {l : List Change}
    {j : Nat} (h : scanInsert cs nc = some (l, j)) :
    ∀ x ∈ l, x = nc ∨ x ∈ cs := by
  induction cs generalizing l j with
  | nil =>
    simp only [scanInsert, Option.some.injEq, Prod.mk.injEq] at h
    obtain ⟨hl, _⟩ := h
    subst hl
    intro x hx
    simp only [List.mem_singleton] at hx
    exact Or.inl hx
  | cons y ys ih =>
    by_cases h1 : y.range.stop ≤ nc.range.start
    · cases hsc : scanInsert ys nc with
      | none => simp [scanInsert, h1, hsc] at h
      | some lj =>
        obtain ⟨l', j'⟩ := lj
        simp only [scanInsert, if_pos h1, hsc, Option.some.injEq,
          Prod.mk.injEq] at h
        obtain ⟨hl, _⟩ := h
        subst hl
        intro x hx
        rcases List.mem_cons.mp hx with rfl | hx'
        · exact Or.inr (List.mem_cons_self _ _)
        · rcases ih hsc x hx' with h' | h'
          · exact Or.inl h'
          · exact Or.inr (List.mem_cons_of_mem _ h')
    · by_cases h2 : y.range.start < nc.range.stop
      · simp [scanInsert, h1, h2] at h
      · simp only [scanInsert, if_neg h1, if_neg h2, Option.some.injEq,
          Prod.mk.injEq] at h
        obtain ⟨hl, _⟩ := h
        subst hl
        intro x hx
        rcases List.mem_cons.mp hx with rfl | hx'
        · exact Or.inl rfl
        · exact Or.inr hx'

theorem scanInsert_head {cs : List Change} {nc : Change} {l : List Change}
    {j : Nat} (h : scanInsert cs nc = some (l, j)) :
    l.head? = if j = 0 then some nc else cs.head? := by
  induction cs generalizing l j with
  | nil =>
    simp only [scanInsert, Option.some.injEq, Prod.mk.injEq] at h
    obtain ⟨hl, hj⟩ := h
    subst hl; subst hj
    rfl
  | cons y ys ih =>
    by_cases h1 : y.range.stop ≤ nc.range.start
    · cases hsc : scanInsert ys nc with
      | none => simp [scanInsert, h1, hsc] at h
      | some lj =>
        obtain ⟨l', j'⟩ := lj
        simp only [scanInsert, if_pos h1, hsc, Option.some.injEq,
          Prod.mk.injEq] at h
        obtain ⟨hl, hj⟩ := h
        subst hl; subst hj
        simp
    · by_cases h2 : y.range.start < nc.range.stop
      · simp [scanInsert, h1, h2] at h
      · simp only [scanInsert, if_neg h1, if_neg h2, Option.some.injEq,
          Prod.mk.injEq] at h
        obtain ⟨hl, hj⟩ := h
        subst hl; subst hj
        rfl

theorem scanInsert_chain {cs : List Change} {nc : Change} {l : List Change}
    {j : Nat} (hch : changesChained cs) (h : scanInsert cs nc = some (l, j)) :
    changesChained l := by
  induction cs generalizing l j with
  | nil =>
    simp only [scanInsert, Option.some.injEq, Prod.mk.injEq] at h
    obtain ⟨hl, _⟩ := h
    subst hl
    exact List.chain'_singleton nc
  | cons y ys ih =>
    by_cases h1 : y.range.stop ≤ nc.range.start
    · cases hsc : scanInsert ys nc with
      | none => simp [scanInsert, h1, hsc] at h
      | some lj =>
        obtain ⟨l', j'⟩ := lj
        simp only [scanInsert, if_pos h1, hsc, Option.some.injEq,
          Prod.mk.injEq] at h
        obtain ⟨hl, _⟩ := h
        subst hl
        refine List.chain'_cons'.mpr ⟨?_, ih (chained_tail hch) hsc⟩
        intro b hb
        rw [scanInsert_head hsc] at hb
        by_cases hj' : j' = 0
        · rw [if_pos hj'] at hb
          cases hb
          exact h1
        · rw [if_neg hj'] at hb
          exact (List.chain'_cons'.mp hch).1 b hb
    · by_cases h2 : y.range.start < nc.range.stop
      · simp [scanInsert, h1, h2] at h
      · simp only [scanInsert, if_neg h1, if_neg h2, Option.some.injEq,
          Prod.mk.injEq] at h
        obtain ⟨hl, _⟩ := h
        subst hl
        refine List.chain'_cons'.mpr ⟨?_, hch⟩
        intro b hb
        simp only [List.head?_cons, Option.mem_def, Option.some.injEq] at hb
        subst hb
        omega

theorem change_new_start_pos {t : Transcript} {r : Filerange} {i : Nat}
    (h : change_new_start t r = i + 1) :
    ∃ lc, t.changes.get? i = some lc ∧ lc.range.stop ≤ r.start := by
  cases hl : t.latest with
  | none =>
    rw [show change_new_start t r = 0 from by simp [change_new_start, hl]] at h
    exact absurd h (by omega)
  | some i0 =>
    cases hg : t.changes.get? i0 with
    | none =>
      have hg2 : t.changes[i0]? = none := by
        rw [← List.get?_eq_getElem?]; exact hg
      rw [show change_new_start t r = 0 from by
        simp [change_new_start, hl, hg2]] at h
      exact absurd h (by omega)
    | some lc =>
      have hg2 : t.changes[i0]? = some lc := by
        rw [← List.get?_eq_getElem?]; exact hg
      by_cases hle : lc.range.stop ≤ r.start
      · rw [show change_new_start t r = i0 + 1 from by
          simp [change_new_start, hl, hg2, hle]] at h
        have : i0 = i := by omega
        subst this
        exact ⟨lc, hg, hle⟩
      · rw [show change_new_start t r = 0 from by
          simp [change_new_start, hl, hg2, hle]] at h
        exact absurd h (by omega)

/-- A successful `change_new` keeps the transcript ordered and valid. -/
theorem change_new_preserves_wf (t : Transcript) (ty : Nat) (r : Filerange)
    (w : Nat) (s : Option Nat)
    (hch : changesChained t.changes) (hval : changesAllValid t.changes) :
    changesChained ((change_new t ty r w s).2).changes ∧
    changesAllValid ((change_new t ty r w s).2).changes := by
  by_cases hv : text_range_valid r = true
  · cases hsc : scanInsert (t.changes.drop (change_new_start t r))
      ⟨ty, w, s, r, [], 0, 0⟩ with
    | none =>
      simp only [change_new, hv, if_true, hsc]
      exact ⟨hch, hval⟩
    | some lj =>
      obtain ⟨l, j⟩ := lj
      have hgoal : ((change_new t ty r w s).2).changes =
          t.changes.take (change_new_start t r) ++ l := by
        simp [change_new, hv, hsc]
      rw [hgoal]
      constructor
      · refine List.chain'_append.mpr
          ⟨chained_take _ hch,
           scanInsert_chain (chained_drop _ hch) hsc, ?_⟩
        intro x hx y hy
        rw [scanInsert_head hsc] at hy
        by_cases hj : j = 0
        · rw [if_pos hj] at hy
          cases hy
          cases hk : change_new_start t r with
          | zero => rw [hk] at hx; simp at hx
          | succ i =>
            obtain ⟨lc, hg, hle⟩ := change_new_start_pos hk
            rw [hk, getLast?_take_of_get? hg] at hx
            cases hx
            exact hle
        · rw [if_neg hj] at hy
          exact chained_take_drop_bound _ hch x hx y hy
      · intro x hx
        rcases List.mem_append.mp hx with h | h
        · exact hval x (List.mem_of_mem_take h)
        · rcases scanInsert_mem hsc x h with rfl | h'
          · exact hv
          · exact hval x (List.mem_of_mem_drop h')
  · simp only [change_new, hv]
    simp only [Bool.false_eq_true, if_false]
    exact ⟨hch, hval⟩

theorem chained_pairwise {cs : List Change} (hch : changesChained cs)
    (hval : changesAllValid cs) :
    List.Pairwise (fun a b => a.range.stop ≤ b.range.start) cs := by
  induction cs with
  | nil => exact List.Pairwise.nil
  | cons x xs ih =>
    refine List.Pairwise.cons ?_
      (ih (chained_tail hch) (fun d hd => hval d (List.mem_cons_of_mem _ hd)))
    exact chained_head_le hch (fun d hd => hval d (List.mem_cons_of_mem _ hd))

/-! ## Claim theorems -/

/-- C1: if a change already enqueued on a file's transcript overlaps the
range of a newly enqueued change (each range's start strictly below the
other's end), then `change_new` records `SAM_ERR_CONFLICT` on that
transcript, does not link the new change, leaves the change list untouched,
and `sam_cmd`'s apply phase issues no text operation for that file (the
error, once set, survives all later `change_new` calls of the same
invocation). -/
theorem sam_cmd_conflict_detection (t : Transcript) (ty : Nat) (r : Filerange)
    (w : Nat) (s : Option Nat) (c : Change)
    (hch : changesChained t.changes) (hval : changesAllValid t.changes)
    (hv : text_range_valid r = true) (hc : c ∈ t.changes)
    (ho : rangesOverlap c.range r) :
    change_new t ty r w s = (none, { t with error := SamError.conflict }) ∧
    ((change_new t ty r w s).2).changes = t.changes ∧
    sam_apply_file ((change_new t ty r w s).2) = [] ∧
    (∀ t2 : Transcript, t2.error = SamError.conflict → ∀ ty2 r2 w2 s2,
       ((change_new t2 ty2 r2 w2 s2).2).error = SamError.conflict) := by
  have hmain := change_new_conflict_of_overlap t ty r w s hch hval hv ⟨c, hc, ho⟩
  refine ⟨hmain, by rw [hmain], ?_, ?_⟩
  · rw [hmain]
    simp [sam_apply_file]
  · intro t2 he2 ty2 r2 w2 s2
    exact change_new_conflict_persists t2 ty2 r2 w2 s2 he2

/-- C1 witness: a transcript holding a delete of `[2,5)` rejects an insert
whose range `[4,6)` overlaps it, and the apply phase for that file issues
no text operation. -/
theorem sam_cmd_conflict_detection_witness :
    change_new ⟨[⟨TRANSCRIPT_DELETE, 0, none, ⟨2, 5⟩, [], 0, 0⟩], some 0,
        SamError.ok⟩ TRANSCRIPT_INSERT ⟨4, 6⟩ 0 none =
      (none, ⟨[⟨TRANSCRIPT_DELETE, 0, none, ⟨2, 5⟩, [], 0, 0⟩], some 0,
        SamError.conflict⟩) ∧
    sam_apply_file ((change_new ⟨[⟨TRANSCRIPT_DELETE, 0, none, ⟨2, 5⟩, [], 0, 0⟩],
        some 0, SamError.ok⟩ TRANSCRIPT_INSERT ⟨4, 6⟩ 0 none).2) = [] :=
  have H := sam_cmd_conflict_detection
    ⟨[⟨TRANSCRIPT_DELETE, 0, none, ⟨2, 5⟩, [], 0, 0⟩], some 0, SamError.ok⟩
    TRANSCRIPT_INSERT ⟨4, 6⟩ 0 none
    ⟨TRANSCRIPT_DELETE, 0, none, ⟨2, 5⟩, [], 0, 0⟩
    (List.chain'_singleton _)
    (by intro c hc; simp only [List.mem_singleton] at hc; subst hc; decide)
    (by decide) (by decide) (by decide)
  ⟨H.1, H.2.2.1⟩

/-- C2 (amended): after every call to `change_new` the transcript's change
list remains ordered so that each change's `range.end` is at most the next
change's `range.start` — hence the `range.start`s are non-decreasing (not
strictly increasing: two inserts at one position yield equal starts) — with
all ranges valid and pairwise non-overlapping; and a change whose range
crosses an existing change's range is never linked and marks the transcript
with `Conflict`. -/
theorem change_new_transcript_invariant (t : Transcript) (ty : Nat)
    (r : Filerange) (w : Nat) (s : Option Nat)
    (hch : changesChained t.changes) (hval : changesAllValid t.changes) :
    changesChained ((change_new t ty r w s).2).changes ∧
    changesAllValid ((change_new t ty r w s).2).changes ∧
    List.Pairwise (fun a b => a.range.start ≤ b.range.start)
      ((change_new t ty r w s).2).changes ∧
    List.Pairwise (fun a b => ¬ rangesOverlap a.range b.range)
      ((change_new t ty r w s).2).changes ∧
    (∀ c ∈ t.changes, rangesOverlap c.range r → text_range_valid r = true →
       change_new t ty r w s = (none, { t with error := SamError.conflict })) := by
  obtain ⟨h1, h2⟩ := change_new_preserves_wf t ty r w s hch hval
  have hpw := chained_pairwise h1 h2
  refine ⟨h1, h2, ?_, ?_, ?_⟩
  · refine List.Pairwise.imp_of_mem ?_ hpw
    intro a b ha _ hab
    have := valid_start_le_stop (h2 a ha)
    omega
  · refine hpw.imp ?_
    intro a b hab
    intro hov
    have := hov.2
    omega
  · intro c hc ho hv
    exact change_new_conflict_of_overlap t ty r w s hch hval hv ⟨c, hc, ho⟩

/-- C2 witness: instantiating the invariant on a transcript holding one
delete of `[2,5)` and a fresh delete of `[7,9)`. -/
theorem change_new_transcript_invariant_witness :
    changesChained ((change_new ⟨[⟨TRANSCRIPT_DELETE, 0, none, ⟨2, 5⟩, [], 0, 0⟩],
        some 0, SamError.ok⟩ TRANSCRIPT_DELETE ⟨7, 9⟩ 0 none).2).changes ∧
    List.Pairwise (fun a b => ¬ rangesOverlap a.range b.range)
      ((change_new ⟨[⟨TRANSCRIPT_DELETE, 0, none, ⟨2, 5⟩, [], 0, 0⟩],
        some 0, SamError.ok⟩ TRANSCRIPT_DELETE ⟨7, 9⟩ 0 none).2).changes :=
  have H := change_new_transcript_invariant
    ⟨[⟨TRANSCRIPT_DELETE, 0, none, ⟨2, 5⟩, [], 0, 0⟩], some 0, SamError.ok⟩
    TRANSCRIPT_DELETE ⟨7, 9⟩ 0 none (List.chain'_singleton _)
    (by intro c hc; simp only [List.mem_singleton] at hc; subst hc; decide)
  ⟨H.1, H.2.2.2.1⟩

/-- C2 counterexample: the list is not *strictly* ordered by `range.start`.
Two `sam_insert`s at byte position 5 (e.g. two `a` commands of one group at
the same spot) are both linked, leaving two changes with equal starts and
no conflict. -/
theorem change_new_not_strictly_ordered :
    ((sam_insert (sam_insert ⟨[], none, SamError.ok⟩ 0 none 5 [97] 1 1).2
        0 none 5 [98] 1 1).2).changes.map (fun c => c.range.start) = [5, 5] ∧
    ((sam_insert (sam_insert ⟨[], none, SamError.ok⟩ 0 none 5 [97] 1 1).2
        0 none 5 [98] 1 1).2).error = SamError.ok ∧
    ¬ List.Pairwise (fun a b => a.range.start < b.range.start)
      ((sam_insert (sam_insert ⟨[], none, SamError.ok⟩ 0 none 5 [97] 1 1).2
        0 none 5 [98] 1 1).2).changes := by
  refine ⟨by decide, by decide, ?_⟩
  decide

/-- C10: `change_new` on an invalid range — one whose `start` or `end` is
`EPOS` or whose `start` exceeds its `end` — returns NULL and leaves the
transcript (list, latest and error) completely untouched, so `sam_delete`
and `sam_change` return false on such a range and `sam_insert` returns
false for position `EPOS`, all without modifying the transcript. -/
theorem change_new_invalid_range (t : Transcript) (r : Filerange)
    (h : text_range_valid r = false) :
    (∀ ty w s, change_new t ty r w s = (none, t)) ∧
    (∀ w s, sam_delete t w s r = (false, t)) ∧
    (∀ w s data len count, sam_change t w s r data len count = (false, t)) ∧
    (∀ w s data len count pos, text_range_valid (text_range_new pos pos) = false →
       sam_insert t w s pos data len count = (false, t)) := by
  have hcn : ∀ ty w s, change_new t ty r w s = (none, t) := by
    intro ty w s
    simp [change_new, h]
  refine ⟨hcn, ?_, ?_, ?_⟩
  · intro w s
    simp [sam_delete, hcn]
  · intro w s d l c
    simp [sam_change, hcn]
  · intro w s d l c pos hp
    have hcn' : change_new t TRANSCRIPT_INSERT (text_range_new pos pos) w s =
        (none, t) := by
      simp [change_new, hp]
    simp [sam_insert, hcn']

/-- C10 witness: the inverted range `[5,3]` and position `EPOS` are both
rejected on a transcript already holding one change, which is returned
unchanged. -/
theorem change_new_invalid_range_witness :
    text_range_valid ⟨5, 3⟩ = false ∧
    change_new ⟨[⟨TRANSCRIPT_DELETE, 0, none, ⟨2, 5⟩, [], 0, 0⟩], some 0,
        SamError.ok⟩ TRANSCRIPT_DELETE ⟨5, 3⟩ 0 none =
      (none, ⟨[⟨TRANSCRIPT_DELETE, 0, none, ⟨2, 5⟩, [], 0, 0⟩], some 0,
        SamError.ok⟩) ∧
    sam_delete ⟨[⟨TRANSCRIPT_DELETE, 0, none, ⟨2, 5⟩, [], 0, 0⟩], some 0,
        SamError.ok⟩ 0 none ⟨5, 3⟩ =
      (false, ⟨[⟨TRANSCRIPT_DELETE, 0, none, ⟨2, 5⟩, [], 0, 0⟩], some 0,
        SamError.ok⟩) ∧
    sam_insert ⟨[⟨TRANSCRIPT_DELETE, 0, none, ⟨2, 5⟩, [], 0, 0⟩], some 0,
        SamError.ok⟩ 0 none EPOS [] 0 1 =
      (false, ⟨[⟨TRANSCRIPT_DELETE, 0, none, ⟨2, 5⟩, [], 0, 0⟩], some 0,
        SamError.ok⟩) :=
  have H := change_new_invalid_range
    ⟨[⟨TRANSCRIPT_DELETE, 0, none, ⟨2, 5⟩, [], 0, 0⟩], some 0, SamError.ok⟩
    ⟨5, 3⟩ (by decide)
  ⟨by decide, H.1 TRANSCRIPT_DELETE 0 none, H.2.1 0 none,
   H.2.2.2 0 none [] 0 1 EPOS (by decide)⟩

/-- C3 (code bug): the duplicated `consume(raw, 1)` in the brace branches of
`sam_lex` (part_000 lines 1819-1820 and 1827-1828) swallows the byte right
after every opening or closing brace while the emitted token has length 1.
Lexing the line consisting of an opening brace followed by `a` emits only
the GroupStart token over byte 0; the non-whitespace byte `a` at offset 1 is
covered by no token, so concatenating the token slices does not reconstruct
the line.  The longer line (brace, `ab`, brace, `x`) likewise loses the
bytes at offsets 1 and 4. -/
theorem sam_lex_drops_byte_after_brace :
    sam_lex [123, 97] = [⟨0, 1, SamTokenType.ST_GROUP_START⟩] ∧
    ISSPACE 97 = false ∧
    token_covers (sam_lex [123, 97]) 1 = false ∧
    sam_lex [123, 97, 98, 125, 120] =
      [⟨0, 1, SamTokenType.ST_GROUP_START⟩, ⟨2, 1, SamTokenType.ST_STRING⟩,
       ⟨3, 1, SamTokenType.ST_GROUP_END⟩] ∧
    ISSPACE 120 = false ∧
    token_covers (sam_lex [123, 97, 98, 125, 120]) 4 = false := by
  refine ⟨by decide, by decide, by decide, by decide, by decide, by decide⟩

/-- C4 (code bug): `validate_token_stream` accepts token streams containing
`ST_INVALID` because the final `result = nesting == 0;` (part_000 line
2514) unconditionally overwrites the `result = 0` recorded by the loop: a
stream of one invalid token validates, and so does an invalid token
followed by an unmatched GroupStart (unbalanced AND invalid), although the
claim requires `false` in both cases. -/
theorem validate_token_stream_accepts_invalid :
    validate_token_stream [SamTokenType.ST_INVALID] = true ∧
    SamTokenType.ST_INVALID ∈ [SamTokenType.ST_INVALID] ∧
    validate_token_stream [SamTokenType.ST_INVALID, SamTokenType.ST_GROUP_START] = true ∧
    List.count SamTokenType.ST_GROUP_START
        [SamTokenType.ST_INVALID, SamTokenType.ST_GROUP_START] ≠
      List.count SamTokenType.ST_GROUP_END
        [SamTokenType.ST_INVALID, SamTokenType.ST_GROUP_START] := by
  refine ⟨by decide, by decide, by decide, by decide⟩

theorem execute_commands_destructive_stop (ok : Nat → Bool)
    (ds : List CommandDef) (n : Nat) {j : Nat} {dj : CommandDef}
    (hj : ds.get? j = some dj) (hdj : dj.flags &&& CMD_DESTRUCTIVE ≠ 0) :
    (execute_commands ok ds n true).length ≤ j := by
  induction ds generalizing j n with
  | nil => simp [execute_commands]
  | cons d ds' ih =>
    by_cases hd : (d.flags &&& CMD_DESTRUCTIVE != 0) = true
    · simp [execute_commands, hd]
    · cases j with
      | zero =>
        simp only [List.get?] at hj
        cases hj
        simp only [bne_iff_ne, ne_eq, Decidable.not_not] at hd
        exact absurd hd hdj
      | succ k =>
        have hj' : ds'.get? k = some dj := hj
        by_cases ho : ok n = true
        · simp only [execute_commands, hd, Bool.and_false, Bool.true_and,
            Bool.false_eq_true, if_false, ho, if_true, List.length_cons,
            Bool.true_or]
          have := ih (n + 1) hj'
          omega
        · simp only [execute_commands, hd, Bool.true_and, Bool.false_eq_true,
            if_false, ho, List.length_singleton]
          omega

theorem execute_commands_loop_blocks_destructive (ok : Nat → Bool)
    (ds : List CommandDef) (n : Nat) (dl : Bool) {i j : Nat}
    {di dj : CommandDef} (hij : i < j)
    (hi : ds.get? i = some di) (hdi : di.flags &&& CMD_LOOP ≠ 0)
    (hj : ds.get? j = some dj) (hdj : dj.flags &&& CMD_DESTRUCTIVE ≠ 0) :
    (execute_commands ok ds n dl).length ≤ j := by
  induction ds generalizing i j n dl with
  | nil => simp [execute_commands]
  | cons d ds' ih =>
    by_cases hrej : (dl && (d.flags &&& CMD_DESTRUCTIVE != 0)) = true
    · simp [execute_commands, hrej]
    · cases i with
      | zero =>
        simp only [List.get?] at hi
        cases hi
        cases j with
        | zero => omega
        | succ k =>
          have hj' : ds'.get? k = some dj := hj
          by_cases ho : ok n = true
          · have hloop : (di.flags &&& CMD_LOOP != 0) = true := by
              simpa [bne_iff_ne] using hdi
            simp only [execute_commands, hrej, Bool.false_eq_true, if_false,
              ho, if_true, List.length_cons, hloop, Bool.or_true]
            have := execute_commands_destructive_stop ok ds' (n + 1) hj' hdj
            omega
          · simp only [execute_commands, hrej, Bool.false_eq_true, if_false,
              ho, List.length_singleton]
            omega
      | succ i' =>
        have hi' : ds'.get? i' = some di := hi
        cases j with
        | zero => omega
        | succ k =>
          have hj' : ds'.get? k = some dj := hj
          by_cases ho : ok n = true
          · simp only [execute_commands, hrej, Bool.false_eq_true, if_false,
              ho, if_true, List.length_cons]
            have := ih (n + 1) (dl || (d.flags &&& CMD_LOOP != 0))
              (by omega : i' < k) hi' hj'
            omega
          · simp only [execute_commands, hrej, Bool.false_eq_true, if_false,
              ho, List.length_singleton]
            omega

/-- C5 (amended): in the command definition table the loop-class flag
`CMD_LOOP` is carried by exactly `x` and `y` — not by `g`, `v`, `X` or `Y` —
and `CMD_DESTRUCTIVE` by exactly `e`, `q`, `qall` and `wq`; in the
executor's loop, once a `CMD_LOOP` command has executed, any later command
carrying `CMD_DESTRUCTIVE` is rejected: its handler is not invoked and
execution of the line stops. -/
theorem executor_loop_destructive_rule :
    ((command_definition_table.filter
        (fun d => d.flags &&& CMD_LOOP != 0)).map (fun d => d.name) =
      [strBytes "x", strBytes "y"]) ∧
    ((command_definition_table.filter
        (fun d => d.flags &&& CMD_DESTRUCTIVE != 0)).map (fun d => d.name) =
      [strBytes "e", strBytes "q", strBytes "qall", strBytes "wq"]) ∧
    (∀ (ok : Nat → Bool) (ds : List CommandDef) (i j : Nat)
       (di dj : CommandDef), i < j →
       ds.get? i = some di → di.flags &&& CMD_LOOP ≠ 0 →
       ds.get? j = some dj → dj.flags &&& CMD_DESTRUCTIVE ≠ 0 →
       (execute_commands ok ds 0 false).length ≤ j) := by
  refine ⟨by decide, by decide, ?_⟩
  intro ok ds i j di dj hij hi hdi hj hdj
  exact execute_commands_loop_blocks_destructive ok ds 0 false hij hi hdi hj hdj

/-- C5 witness: on the command sequence `x q` with all handlers succeeding,
only the first command's handler runs — the destructive `q` after the
looping `x` is rejected. -/
theorem executor_loop_destructive_rule_witness :
    (execute_commands (fun _ => true) [cmddef_x, cmddef_q] 0 false).length ≤ 1 ∧
    execute_commands (fun _ => true) [cmddef_x, cmddef_q] 0 false = [cmddef_x] :=
  have H := executor_loop_destructive_rule.2.2 (fun _ => true)
    [cmddef_x, cmddef_q] 0 1 cmddef_x cmddef_q (by decide) (by decide)
    (by decide) (by decide) (by decide)
  ⟨H, by decide⟩

/-- C5 counterexample: `g` does not carry `CMD_LOOP`, so after a `g`
command the destructive `q` is still executed — on the sequence `g q` both
handlers are invoked, contradicting the claim that `g` is loop-class. -/
theorem executor_g_does_not_block_destructive :
    execute_commands (fun _ => true) [cmddef_g, cmddef_q] 0 false =
      [cmddef_g, cmddef_q] ∧
    cmddef_q.flags &&& CMD_DESTRUCTIVE ≠ 0 ∧
    cmddef_g.name = strBytes "g" ∧ cmddef_q.name = strBytes "q" := by
  refine ⟨by decide, by decide, by decide, by decide⟩

/-- C6 (amended): `g` runs its nested command iff the pattern matches
inside the range and the iteration passes the count check; `v` runs its
nested command iff NOT (the pattern matches and the count check passes) —
the count check sits inside the negation, so `v` also runs when only the
count check fails; whenever the nested command is not run, the selection is
disposed instead. -/
theorem command_guard_cases (g : GuardInput) :
    (g.is_v = false →
      (command_guard g = GuardAction.runNested ↔
        count_evaluate g.count g.iteration = true ∧ guard_match g = true)) ∧
    (g.is_v = true →
      (command_guard g = GuardAction.runNested ↔
        ¬(count_evaluate g.count g.iteration = true ∧ guard_match g = true))) ∧
    (command_guard g = GuardAction.dispose ↔
      ¬ command_guard g = GuardAction.runNested) := by
  unfold command_guard
  cases hv : g.is_v <;> cases hc : count_evaluate g.count g.iteration <;>
    cases hm : guard_match g <;> simp

/-- C6 witness: `g` with no regex (match defaults to true) and a passing
count runs the nested command. -/
theorem command_guard_cases_witness :
    command_guard ⟨false, ⟨0, 10, false⟩, 1, false, none, ⟨0, 5⟩⟩ =
      GuardAction.runNested :=
  ((command_guard_cases ⟨false, ⟨0, 10, false⟩, 1, false, none, ⟨0, 5⟩⟩).1
    rfl).mpr ⟨by decide, by decide⟩

/-- C6 counterexample: for `v` with a matching pattern (hit at byte 0 inside
`[0,5)`) and a failing count check (count `[2,2]`, iteration 1), the nested
command IS executed, although the claim says `v` runs it only when the
pattern does not match and the count check passes. -/
theorem command_guard_v_ignores_count :
    command_guard ⟨true, ⟨2, 2, false⟩, 1, true, some 0, ⟨0, 5⟩⟩ =
      GuardAction.runNested ∧
    guard_match ⟨true, ⟨2, 2, false⟩, 1, true, some 0, ⟨0, 5⟩⟩ = true ∧
    count_evaluate (⟨2, 2, false⟩ : Count) 1 = false := by
  refine ⟨by decide, by decide, by decide⟩

/-- C7: for delimiter `,` evaluation yields the union of the left side's
range (defaulting to `[0,0]` when the left side is omitted) and the right
side's range (defaulting to `[size,size]` when omitted); for `;` the same
union, except that the right side is evaluated with the left side's range
substituted as the current range. -/
theorem evaluate_address_comma_semicolon (tm : TextModel) (a : Address)
    (sel : Option Nat) (range : Filerange)
    (h : a.delimeter = 44 ∨ a.delimeter = 59) :
    evaluate_address tm a sel range =
      text_range_union
        (match a.left with
         | .invalid => (⟨0, 0⟩ : Filerange)
         | l => evaluate_address_side tm l sel range)
        (match a.right with
         | .invalid => (⟨tm.size, tm.size⟩ : Filerange)
         | r => evaluate_address_side tm r sel
             (if a.delimeter = 59 then
                (match a.left with
                 | .invalid => (⟨0, 0⟩ : Filerange)
                 | l => evaluate_address_side tm l sel range)
              else range)) := by
  rcases h with h | h <;> simp [evaluate_address, h]

/-- C7 witness: with both sides omitted and delimiter `,` over a file of
size 7, the address evaluates to the union of `[0,0]` and `[7,7]`, the
whole file `[0,7]`. -/
theorem evaluate_address_comma_semicolon_witness :
    evaluate_address ⟨7, fun _ => 0, fun _ => 0, fun _ => 0, fun _ => none,
        fun _ _ => 0, fun _ _ => ⟨0, 0⟩, fun _ _ => ⟨0, 0⟩⟩
      ⟨AddressSide.invalid, AddressSide.invalid, 44⟩ none ⟨1, 2⟩ = ⟨0, 7⟩ :=
  (evaluate_address_comma_semicolon
    ⟨7, fun _ => 0, fun _ => 0, fun _ => 0, fun _ => none,
     fun _ _ => 0, fun _ _ => ⟨0, 0⟩, fun _ _ => ⟨0, 0⟩⟩
    ⟨AddressSide.invalid, AddressSide.invalid, 44⟩ none ⟨1, 2⟩
    (Or.inl rfl)).trans (by decide)

theorem apply_changes_eq_spec (cs : List Change) :
    ∀ delta : Int, apply_in_bounds cs delta = true →
      apply_changes cs delta = apply_changes_spec cs delta := by
  induction cs with
  | nil => intro delta _; rfl
  | cons c cs ih =>
    intro delta h
    have hE : EPOS = 2 ^ 64 - 1 := rfl
    simp only [apply_in_bounds, Bool.and_eq_true, decide_eq_true_eq] at h
    obtain ⟨⟨⟨h1, h2⟩, h3⟩, h4⟩ := h
    have hEi : ((EPOS : Nat) : Int) = 2 ^ 64 - 1 := by
      rw [hE]; norm_num
    have hse : (c.range.start : Int) + delta ≤ (c.range.stop : Int) + delta := by
      have : (c.range.start : Int) ≤ (c.range.stop : Int) := by exact_mod_cast h3
      omega
    have hws : wrap64 ((c.range.start : Int) + delta) =
        ((c.range.start : Int) + delta).toNat := by
      unfold wrap64
      rw [Int.emod_eq_of_lt h1 (by omega)]
    have hwe : wrap64 ((c.range.stop : Int) + delta) =
        ((c.range.stop : Int) + delta).toNat := by
      unfold wrap64
      rw [Int.emod_eq_of_lt (by omega) (by omega)]
    have hvalid : text_range_valid
        ⟨((c.range.start : Int) + delta).toNat,
         ((c.range.stop : Int) + delta).toNat⟩ = true := by
      simp only [text_range_valid, Bool.and_eq_true, bne_iff_ne, ne_eq,
        decide_eq_true_eq]
      refine ⟨⟨by omega, by omega⟩, by omega⟩
    have hsize : ((text_range_size
        ⟨((c.range.start : Int) + delta).toNat,
         ((c.range.stop : Int) + delta).toNat⟩ : Nat) : Int) =
        (c.range.stop : Int) - (c.range.start : Int) := by
      simp only [text_range_size, hvalid, if_true]
      omega
    cases hdel : c.type &&& TRANSCRIPT_DELETE != 0 <;>
      cases hins : c.type &&& TRANSCRIPT_INSERT != 0 <;>
        simp only [apply_changes, apply_changes_spec, hdel, hins,
          Bool.false_eq_true, if_true, if_false, ite_true, ite_false, hws,
          hwe, List.nil_append, List.append_nil, List.singleton_append,
          List.cons_append, add_zero, sub_zero] at h4 ⊢ <;>
        (first
          | exact ih _ h4
          | ((convert ih _ h4 using 2) <;> omega)
          | (congr 1 <;> first
              | rfl
              | ((convert ih _ h4 using 2) <;> omega)
              | (congr 1 <;> first
                  | rfl
                  | ((convert ih _ h4 using 2) <;> omega))))

/-- C8: the apply phase visits each file's transcript changes in list order
with a running byte-offset delta starting at 0, and — whenever the shifted
positions stay inside `[0, EPOS)`, which holds for every transcript over a
real buffer — it matches the specified behaviour exactly: each change is
applied at its recorded range shifted by the current delta, a Change's
deletion is issued before its insertion, and delta is updated by
`+len*count` for each insert and by `-(range.end - range.start)` for each
delete. -/
theorem sam_apply_phase_delta (cs : List Change)
    (h : apply_in_bounds cs 0 = true) :
    apply_changes cs 0 = apply_changes_spec cs 0 ∧
    sam_apply_file ⟨cs, none, SamError.ok⟩ = apply_changes_spec cs 0 := by
  have he := apply_changes_eq_spec cs 0 h
  exact ⟨he, by simpa [sam_apply_file] using he⟩

/-- C8 witness: a transcript of a Change (delete-then-insert) of `[2,4)`
into `ab` twice followed by a delete of `[6,7)` produces the specified
operation trace. -/
theorem sam_apply_phase_delta_witness :
    apply_in_bounds
      [⟨TRANSCRIPT_CHANGE, 0, none, ⟨2, 4⟩, [97, 98], 2, 2⟩,
       ⟨TRANSCRIPT_DELETE, 0, none, ⟨6, 7⟩, [], 0, 0⟩] 0 = true ∧
    apply_changes
      [⟨TRANSCRIPT_CHANGE, 0, none, ⟨2, 4⟩, [97, 98], 2, 2⟩,
       ⟨TRANSCRIPT_DELETE, 0, none, ⟨6, 7⟩, [], 0, 0⟩] 0 =
    apply_changes_spec
      [⟨TRANSCRIPT_CHANGE, 0, none, ⟨2, 4⟩, [97, 98], 2, 2⟩,
       ⟨TRANSCRIPT_DELETE, 0, none, ⟨6, 7⟩, [], 0, 0⟩] 0 :=
  ⟨by decide,
   (sam_apply_phase_delta
     [⟨TRANSCRIPT_CHANGE, 0, none, ⟨2, 4⟩, [97, 98], 2, 2⟩,
      ⟨TRANSCRIPT_DELETE, 0, none, ⟨6, 7⟩, [], 0, 0⟩] (by decide)).1⟩

theorem map_delete_fst_eq_get (m : List (String × Nat)) (k : String) :
    (map_delete m k).1 = map_get m k := by
  induction m with
  | nil => rfl
  | cons p rest ih =>
    obtain ⟨k', v⟩ := p
    cases hmd : map_delete rest k with
    | mk r rest' =>
      by_cases hk : k' = k
      · simp [map_delete, map_get, hk]
      · simp only [map_delete, map_get, hk, if_false, hmd, ite_false]
        rw [← ih, hmd]

theorem map_delete_snd_of_absent (m : List (String × Nat)) (k : String)
    (h : map_get m k = none) : (map_delete m k).2 = m := by
  induction m with
  | nil => rfl
  | cons p rest ih =>
    obtain ⟨k', v⟩ := p
    by_cases hk : k' = k
    · simp [map_get, hk] at h
    · simp only [map_get, hk, if_false, ite_false] at h
      cases hmd : map_delete rest k with
      | mk r rest' =>
        have hthis := ih h
        rw [hmd] at hthis
        simp only at hthis
        simp only [map_delete, hk, if_false, ite_false, hmd]
        rw [hthis]

/-- C9: `vis_cmd_unregister` is atomic: either the looked-up name is a user
command present in both registries, both entries are removed and the call
returns true, or nothing at all is changed and the call returns false. -/
theorem vis_cmd_unregister_atomic (vis : VisMaps) (name : String) :
    (vis_cmd_unregister vis name =
       (true, ⟨(map_delete vis.cmds name).2, (map_delete vis.usercmds name).2⟩) ∧
     map_get vis.cmds name ≠ none ∧ map_get vis.usercmds name ≠ none) ∨
    vis_cmd_unregister vis name = (false, vis) := by
  unfold vis_cmd_unregister
  cases hu : map_get vis.usercmds name with
  | none => exact Or.inr rfl
  | some uv =>
    cases hcd : map_delete vis.cmds name with
    | mk r1 cmds' =>
      cases r1 with
      | none =>
        refine Or.inr ?_
        have habs : map_get vis.cmds name = none := by
          rw [← map_delete_fst_eq_get, hcd]
        have : cmds' = vis.cmds := by
          have := map_delete_snd_of_absent vis.cmds name habs
          rw [hcd] at this
          exact this
        simp [this]
      | some cv =>
        cases hud : map_delete vis.usercmds name with
        | mk r2 usercmds' =>
          cases r2 with
          | none =>
            exfalso
            have : map_get vis.usercmds name = none := by
              rw [← map_delete_fst_eq_get, hud]
            rw [hu] at this
            cases this
          | some uv' =>
            refine Or.inl ⟨?_, ?_, ?_⟩
            · simp [hcd, hud]
            · rw [← map_delete_fst_eq_get, hcd]
              simp
            · simp

/-- C9 witness: unregistering `foo` from registries where it is present in
both removes both entries and returns true; unregistering a missing name
changes nothing and returns false. -/
theorem vis_cmd_unregister_atomic_witness :
    vis_cmd_unregister ⟨[("foo", 1), ("bar", 2)], [("foo", 10)]⟩ "foo" =
      (true, ⟨[("bar", 2)], []⟩) ∧
    vis_cmd_unregister ⟨[("bar", 2)], []⟩ "foo" =
      (false, ⟨[("bar", 2)], []⟩) :=
  have H := vis_cmd_unregister_atomic ⟨[("foo", 1), ("bar", 2)], [("foo", 10)]⟩ "foo"
  have H2 := vis_cmd_unregister_atomic ⟨[("bar", 2)], []⟩ "foo"
  by
    rcases H with ⟨h1, _, _⟩ | h1
    · rcases H2 with ⟨_, _, h2⟩ | h2
      · exact absurd rfl h2
      · exact ⟨by rw [h1]; decide, h2⟩
    · exact absurd h1 (by decide)
